import Mathlib

/-!
Verification of the prompt-to-proof evaluation-and-attestation engine.

This file gives a shallow embedding of the core of the repository:

* the canonical hasher `stable = JSON.stringify ∘ sortObj` and the digest
  `sha256 ∘ stable` (src/attest.ts, src/verify.ts) — SHA-256 itself is an
  external cryptographic primitive and is modelled as an abstract function
  `H : String → String`; where a claim needs collision-freedom the theorem
  carries the corresponding inequality hypothesis at the exact pair of inputs;
* the attestation chain builder `startChain`/`appendRecord` (src/attest.ts);
* the chain verifier loop (src/verify.ts), including its line splitting
  `content.trim().split("\n").filter(Boolean)`;
* the multi-attempt controller of src/run.ts (K_ATTEMPTS loop, pass@1/pass@k
  counters, chosen-code selection, sampling policy) with the external
  generation collaborator abstracted as an oracle;
* the sandboxed executor try/catch wrapper of src/run.ts, with the JS `vm`
  internals abstracted as fallible load/evaluate collaborators.

JSON values are modelled by the mutual inductives `JVal`/`JArr`/`JObj`
(arrays and objects carry their own spine so that every function is
structurally recursive and kernel-computable).  String comparison for
`Object.keys(obj).sort()` is the code-unit lexicographic order, modelled on
`Char.toNat` (identical to JS for all strings appearing here).
-/

namespace PromptToProof

/-- Lexicographic comparison of character lists by code point, the order JS
uses to compare strings (`a < b` then `a > b` else continue). -/
def charListLeB : List Char → List Char → Bool
  | [], _ => true
  | _ :: _, [] => false
  | a :: as, b :: bs =>
    if a.toNat < b.toNat then true
    else if b.toNat < a.toNat then false
    else charListLeB as bs

/-- String comparison used by `Object.keys(obj).sort()` in src/attest.ts and
src/verify.ts. -/
def strLeB (a b : String) : Bool := charListLeB a.data b.data

theorem charListLeB_total (a b : List Char) :
    charListLeB a b = true ∨ charListLeB b a = true := by
  induction a generalizing b with
  | nil => left; rfl
  | cons x xs ih =>
    cases b with
    | nil => right; rfl
    | cons y ys =>
      by_cases h1 : x.toNat < y.toNat
      · left; simp [charListLeB, h1]
      · by_cases h2 : y.toNat < x.toNat
        · right; simp [charListLeB, h2]
        · rcases ih ys with h | h
          · left; simp [charListLeB, h1, h2, h]
          · right; simp [charListLeB, h1, h2, h]

theorem charListLeB_trans {a b c : List Char} (hab : charListLeB a b = true)
    (hbc : charListLeB b c = true) : charListLeB a c = true := by
  induction a generalizing b c with
  | nil => rfl
  | cons x xs ih =>
    cases b with
    | nil => simp [charListLeB] at hab
    | cons y ys =>
      cases c with
      | nil => simp [charListLeB] at hbc
      | cons z zs =>
        simp only [charListLeB] at hab hbc ⊢
        rcases Nat.lt_trichotomy x.toNat y.toNat with hxy | hxy | hxy
        · rcases Nat.lt_trichotomy y.toNat z.toNat with hyz | hyz | hyz
          · simp [show x.toNat < z.toNat by omega]
          · simp [show x.toNat < z.toNat by omega]
          · simp [show ¬ y.toNat < z.toNat by omega, hyz] at hbc
        · simp [show ¬ x.toNat < y.toNat by omega,
            show ¬ y.toNat < x.toNat by omega] at hab
          rcases Nat.lt_trichotomy y.toNat z.toNat with hyz | hyz | hyz
          · simp [show x.toNat < z.toNat by omega]
          · simp [show ¬ y.toNat < z.toNat by omega,
              show ¬ z.toNat < y.toNat by omega] at hbc
            simp [show ¬ x.toNat < z.toNat by omega,
              show ¬ z.toNat < x.toNat by omega]
            exact ih hab hbc
          · simp [show ¬ y.toNat < z.toNat by omega, hyz] at hbc
        · simp [show ¬ x.toNat < y.toNat by omega, hxy] at hab

theorem char_eq_of_toNat_eq {a b : Char} (h : a.toNat = b.toNat) : a = b :=
  Char.ext (UInt32.ext h)

theorem charListLeB_antisymm {a b : List Char} (hab : charListLeB a b = true)
    (hba : charListLeB b a = true) : a = b := by
  induction a generalizing b with
  | nil =>
    cases b with
    | nil => rfl
    | cons y ys => simp [charListLeB] at hba
  | cons x xs ih =>
    cases b with
    | nil => simp [charListLeB] at hab
    | cons y ys =>
      simp only [charListLeB] at hab hba
      by_cases hxy : x.toNat < y.toNat
      · simp [hxy] at hba
        omega
      · by_cases hyx : y.toNat < x.toNat
        · simp [hxy, hyx] at hab
        · simp [hxy, hyx] at hab hba
          have hx : x = y := char_eq_of_toNat_eq (by omega)
          subst hx
          rw [ih hab hba]

theorem strLeB_antisymm {a b : String} (hab : strLeB a b = true)
    (hba : strLeB b a = true) : a = b := by
  cases a with
  | mk da =>
    cases b with
    | mk db =>
      have : da = db := charListLeB_antisymm hab hba
      rw [this]

mutual

/-- JSON-like values, as produced by `JSON.parse` and consumed by `sortObj`
and `JSON.stringify` in src/attest.ts and src/verify.ts.  Arrays and objects
carry their own list spine so all recursion below is structural. -/
inductive JVal : Type where
  | null : JVal
  | bool (b : Bool) : JVal
  | num (n : Int) : JVal
  | str (s : String) : JVal
  | arr (xs : JArr) : JVal
  | obj (l : JObj) : JVal

inductive JArr : Type where
  | nil : JArr
  | cons (x : JVal) (xs : JArr) : JArr

inductive JObj : Type where
  | nil : JObj
  | cons (k : String) (v : JVal) (l : JObj) : JObj

end

deriving instance DecidableEq for JVal

/-- The entry list of a JSON object, in insertion order. -/
def JObj.toList : JObj → List (String × JVal)
  | .nil => []
  | .cons k v l => (k, v) :: JObj.toList l

/-- Rebuild a JSON object from an entry list. -/
def JObj.ofList : List (String × JVal) → JObj
  | [] => .nil
  | (k, v) :: l => .cons k v (JObj.ofList l)

/-- The element list of a JSON array, in element order. -/
def JArr.toList : JArr → List JVal
  | .nil => []
  | .cons x xs => x :: JArr.toList xs

theorem JObj.toList_ofList (l : List (String × JVal)) :
    (JObj.ofList l).toList = l := by
  induction l with
  | nil => rfl
  | cons p l ih => cases p; simp [JObj.ofList, JObj.toList, ih]

/-- Key order on object entries: `Object.keys(obj).sort()` sorts the keys,
i.e. it orders entries by their key string. -/
def keyLE (a b : String × JVal) : Prop := strLeB a.1 b.1 = true

instance : DecidableRel keyLE := fun a b =>
  inferInstanceAs (Decidable (strLeB a.1 b.1 = true))

instance : IsTotal (String × JVal) keyLE :=
  ⟨fun a b => charListLeB_total a.1.data b.1.data⟩

instance : IsTrans (String × JVal) keyLE :=
  ⟨fun _ _ _ h h2 => charListLeB_trans h h2⟩

/-- Sorting the entries of one object level by key, as
`Object.keys(obj).sort().reduce(...)` does in src/attest.ts lines 25-34 and
src/verify.ts lines 7-16. -/
def JObj.sortFields (l : JObj) : JObj :=
  JObj.ofList (List.insertionSort keyLE l.toList)

mutual

/-- Recursive canonicalisation `sortObj` from src/attest.ts lines 25-34 and
src/verify.ts lines 7-16: primitives unchanged, arrays mapped elementwise in
order, object keys sorted recursively.  The source sorts the keys and then
recurses into each value; here we recurse into the values and then sort,
which produces the same object because sorting permutes entries and never
touches the values. -/
def sortObj : JVal → JVal
  | .null => .null
  | .bool b => .bool b
  | .num n => .num n
  | .str s => .str s
  | .arr xs => .arr (sortObjArr xs)
  | .obj l => .obj (JObj.sortFields (sortObjObj l))

def sortObjArr : JArr → JArr
  | .nil => .nil
  | .cons x xs => .cons (sortObj x) (sortObjArr xs)

def sortObjObj : JObj → JObj
  | .nil => .nil
  | .cons k v l => .cons k (sortObj v) (sortObjObj l)

end

/-- One hexadecimal digit, lower case, as `JSON.stringify` escapes use. -/
def hexDigit (n : Nat) : Char :=
  if n < 10 then Char.ofNat (48 + n) else Char.ofNat (87 + n)

/-- Escaping of one character inside a JSON string literal, following
`JSON.stringify`. -/
def escChar (c : Char) : String :=
  if c = '"' then "\\\""
  else if c = '\\' then "\\\\"
  else if c = '\n' then "\\n"
  else if c = '\r' then "\\r"
  else if c = '\t' then "\\t"
  else if c = '\x08' then "\\b"
  else if c = '\x0c' then "\\f"
  else if c.toNat < 32 then
    "\\u00" ++ String.singleton (hexDigit (c.toNat / 16)) ++
      String.singleton (hexDigit (c.toNat % 16))
  else String.singleton c

/-- A JSON string literal with quotes, as `JSON.stringify` renders strings. -/
def jsonQuote (s : String) : String :=
  "\"" ++ String.join (s.data.map escChar) ++ "\""

mutual

/-- Serialisation to JSON text, `JSON.stringify` on the canonicalised value. -/
def stringify : JVal → String
  | .null => "null"
  | .bool b => if b then "true" else "false"
  | .num n => toString n
  | .str s => jsonQuote s
  | .arr xs => "[" ++ stringifyArr xs ++ "]"
  | .obj l => "\x7b" ++ stringifyObj l ++ "\x7d"

def stringifyArr : JArr → String
  | .nil => ""
  | .cons x .nil => stringify x
  | .cons x (.cons y xs) => stringify x ++ "," ++ stringifyArr (.cons y xs)

def stringifyObj : JObj → String
  | .nil => ""
  | .cons k v .nil => jsonQuote k ++ ":" ++ stringify v
  | .cons k v (.cons k2 v2 l) =>
    jsonQuote k ++ ":" ++ stringify v ++ "," ++ stringifyObj (.cons k2 v2 l)

end

/-- The canonical serialisation `stable = (o) => JSON.stringify(sortObj(o))`
from src/attest.ts line 23 and src/verify.ts line 6. -/
def stable (v : JVal) : String := stringify (sortObj v)

/-- The canonical digest `sha256(stable(o))`; the SHA-256 collaborator is the
abstract `H`. -/
def digest (H : String → String) (v : JVal) : String := H (stable v)

/-- Strict key order: entries with `keyLE` both ways have equal keys, so on
entry lists with pairwise distinct keys `keyLE`-sortedness refines to
`keyLT`-sortedness. -/
def keyLT (a b : String × JVal) : Prop := keyLE a b ∧ a.1 ≠ b.1

instance : IsAntisymm (String × JVal) keyLT :=
  ⟨fun _ _ h1 h2 => absurd (strLeB_antisymm h1.1 h2.1) h1.2⟩

theorem sorted_keyLT_of_sorted_keyLE {l : List (String × JVal)}
    (hs : l.Sorted keyLE) (hn : (l.map Prod.fst).Nodup) : l.Sorted keyLT := by
  have hne : l.Pairwise (fun a b : String × JVal => a.1 ≠ b.1) :=
    List.pairwise_map.mp hn
  exact (hs.and hne).imp fun h => ⟨h.1, h.2⟩

/-- Sorting by key is invariant under permutation of an entry list whose keys
are pairwise distinct (JS objects cannot carry duplicate keys). -/
theorem insertionSort_eq_of_perm_of_nodup_keys {l1 l2 : List (String × JVal)}
    (hp : l1.Perm l2) (hnd : (l1.map Prod.fst).Nodup) :
    List.insertionSort keyLE l1 = List.insertionSort keyLE l2 := by
  have hperm : (List.insertionSort keyLE l1).Perm (List.insertionSort keyLE l2) :=
    (List.perm_insertionSort keyLE l1).trans
      (hp.trans (List.perm_insertionSort keyLE l2).symm)
  have hnd1 : ((List.insertionSort keyLE l1).map Prod.fst).Nodup :=
    (((List.perm_insertionSort keyLE l1).map Prod.fst).nodup_iff).mpr hnd
  have hnd2 : ((List.insertionSort keyLE l2).map Prod.fst).Nodup :=
    ((hperm.map Prod.fst).nodup_iff).mp hnd1
  exact List.eq_of_perm_of_sorted hperm
    (sorted_keyLT_of_sorted_keyLE (List.sorted_insertionSort keyLE l1) hnd1)
    (sorted_keyLT_of_sorted_keyLE (List.sorted_insertionSort keyLE l2) hnd2)

theorem sortFields_eq_of_perm {l m : JObj} (hp : l.toList.Perm m.toList)
    (hnd : (l.toList.map Prod.fst).Nodup) : l.sortFields = m.sortFields := by
  unfold JObj.sortFields
  rw [insertionSort_eq_of_perm_of_nodup_keys hp hnd]

mutual

/-- Every object reachable inside the value has pairwise distinct keys; this
always holds of values built by `JSON.parse` or from JS object literals. -/
def nodupKeysV : JVal → Bool
  | .null => true
  | .bool _ => true
  | .num _ => true
  | .str _ => true
  | .arr xs => nodupKeysArr xs
  | .obj l => decide ((l.toList.map Prod.fst).Nodup) && nodupKeysObj l

def nodupKeysArr : JArr → Bool
  | .nil => true
  | .cons x xs => nodupKeysV x && nodupKeysArr xs

def nodupKeysObj : JObj → Bool
  | .nil => true
  | .cons _ v l => nodupKeysV v && nodupKeysObj l

end

mutual

/-- Two values are structurally equal up to the insertion order of keys in
(possibly nested) mappings: primitives agree, arrays agree elementwise in
order, and each object level is a pointwise-related entry list followed by a
permutation of its entries. -/
inductive KeyPerm : JVal → JVal → Prop where
  | null : KeyPerm .null .null
  | bool (b : Bool) : KeyPerm (.bool b) (.bool b)
  | num (n : Int) : KeyPerm (.num n) (.num n)
  | str (s : String) : KeyPerm (.str s) (.str s)
  | arr {xs ys : JArr} : KeyPermArr xs ys → KeyPerm (.arr xs) (.arr ys)
  | obj {l m r : JObj} : KeyPermObj l m →
      List.Perm (JObj.toList m) (JObj.toList r) → KeyPerm (.obj l) (.obj r)

inductive KeyPermArr : JArr → JArr → Prop where
  | nil : KeyPermArr .nil .nil
  | cons {x y : JVal} {xs ys : JArr} : KeyPerm x y → KeyPermArr xs ys →
      KeyPermArr (.cons x xs) (.cons y ys)

inductive KeyPermObj : JObj → JObj → Prop where
  | nil : KeyPermObj .nil .nil
  | cons (k : String) {v w : JVal} {l m : JObj} : KeyPerm v w →
      KeyPermObj l m → KeyPermObj (.cons k v l) (.cons k w m)

end

theorem toList_sortObjObj : ∀ (l : JObj),
    (sortObjObj l).toList = l.toList.map (fun p => (p.1, sortObj p.2))
  | .nil => rfl
  | .cons k v l => by simp [sortObjObj, JObj.toList, toList_sortObjObj l]

theorem keys_sortObjObj (l : JObj) :
    (sortObjObj l).toList.map Prod.fst = l.toList.map Prod.fst := by
  rw [toList_sortObjObj, List.map_map]
  rfl

theorem keyPermObj_keys : ∀ {l m : JObj}, KeyPermObj l m →
    l.toList.map Prod.fst = m.toList.map Prod.fst
  | .nil, .nil, _ => rfl
  | .cons k v l, .cons _ w m, h => by
    cases h with
    | cons _ hv hl => simp [JObj.toList, keyPermObj_keys hl]

theorem kpArr_sortObjArr_aux {bound : Nat}
    (IH : ∀ a b : JVal, sizeOf a < bound → KeyPerm a b →
      nodupKeysV a = true → sortObj a = sortObj b) :
    ∀ (xs : JArr) {ys : JArr}, sizeOf xs < bound → KeyPermArr xs ys →
      nodupKeysArr xs = true → sortObjArr xs = sortObjArr ys
  | .nil, ys, _, h, _ => by cases h; rfl
  | .cons x xs, ys, hsz, h, hnd => by
    cases h with
    | cons hx hxs =>
      simp only [nodupKeysArr, Bool.and_eq_true] at hnd
      simp only [JArr.cons.sizeOf_spec] at hsz
      simp only [sortObjArr]
      rw [IH x _ (by omega) hx hnd.1,
        kpArr_sortObjArr_aux IH xs (by omega) hxs hnd.2]

theorem kpObj_sortObjObj_aux {bound : Nat}
    (IH : ∀ a b : JVal, sizeOf a < bound → KeyPerm a b →
      nodupKeysV a = true → sortObj a = sortObj b) :
    ∀ (l : JObj) {m : JObj}, sizeOf l < bound → KeyPermObj l m →
      nodupKeysObj l = true → sortObjObj l = sortObjObj m
  | .nil, m, _, h, _ => by cases h; rfl
  | .cons k v l, m, hsz, h, hnd => by
    cases h with
    | cons _ hv hl =>
      simp only [nodupKeysObj, Bool.and_eq_true] at hnd
      simp only [JObj.cons.sizeOf_spec] at hsz
      simp only [sortObjObj]
      rw [IH v _ (by omega) hv hnd.1,
        kpObj_sortObjObj_aux IH l (by omega) hl hnd.2]

/-- Canonicalisation identifies values that differ only in key insertion
order, provided no object level carries duplicate keys. -/
theorem keyPerm_sortObj : ∀ {a b : JVal}, KeyPerm a b →
    nodupKeysV a = true → sortObj a = sortObj b := by
  suffices h : ∀ (n : Nat) (a b : JVal), sizeOf a < n → KeyPerm a b →
      nodupKeysV a = true → sortObj a = sortObj b by
    intro a b hk hnd
    exact h (sizeOf a + 1) a b (Nat.lt_succ_self _) hk hnd
  intro n
  induction n using Nat.strong_induction_on with
  | _ n ih =>
    intro a b hsz hk hnd
    cases hk with
    | null => rfl
    | bool b => rfl
    | num n => rfl
    | str s => rfl
    | arr h =>
      rename_i xs ys
      simp only [sortObj]
      simp only [JVal.arr.sizeOf_spec] at hsz
      rw [kpArr_sortObjArr_aux (ih (sizeOf (JVal.arr xs)) hsz) xs
        (by simp only [JVal.arr.sizeOf_spec]; omega) h hnd]
    | obj hobj hperm =>
      rename_i l m r
      simp only [nodupKeysV, Bool.and_eq_true, decide_eq_true_eq] at hnd
      simp only [sortObj]
      simp only [JVal.obj.sizeOf_spec] at hsz
      have e1 : sortObjObj l = sortObjObj m :=
        kpObj_sortObjObj_aux (ih (sizeOf (JVal.obj l)) hsz) l
          (by simp only [JVal.obj.sizeOf_spec]; omega) hobj hnd.2
      have e2 : (sortObjObj m).toList.Perm (sortObjObj r).toList := by
        rw [toList_sortObjObj, toList_sortObjObj]
        exact hperm.map _
      have hnd2 : ((sortObjObj m).toList.map Prod.fst).Nodup := by
        rw [keys_sortObjObj, ← keyPermObj_keys hobj]
        exact hnd.1
      rw [e1, sortFields_eq_of_perm e2 hnd2]

theorem toList_sortObjArr : ∀ (xs : JArr),
    (sortObjArr xs).toList = xs.toList.map sortObj
  | .nil => rfl
  | .cons x xs => by simp [sortObjArr, JArr.toList, toList_sortObjArr xs]

/-- The `TaskAttestation` record of src/attest.ts lines 4-13: the pre-chain
fields of one attestation, in the insertion order used at the
`appendRecord` call site in src/run.ts lines 332-346. -/
structure TaskAttestation where
  run_id : String
  task_id : String
  model : String
  dataset_sha256 : String
  prompt_sha256 : String
  code_sha256 : String
  pass : Bool
  timestamp : String
deriving DecidableEq

/-- A JS `string | null` value as JSON. -/
def optStrJ : Option String → JVal
  | none => .null
  | some s => .str s

/-- The hashable view `{ ...rec, prevHash }` built in src/attest.ts line 46:
all record fields plus `prevHash`, excluding `idx` and `hash`, with the
object-literal insertion order of the call site (irrelevant after
`sortObj`). -/
def recView (r : TaskAttestation) (prevHash : Option String) : JVal :=
  .obj (.cons "run_id" (.str r.run_id) (.cons "task_id" (.str r.task_id)
    (.cons "model" (.str r.model) (.cons "dataset_sha256" (.str r.dataset_sha256)
    (.cons "prompt_sha256" (.str r.prompt_sha256)
    (.cons "code_sha256" (.str r.code_sha256)
    (.cons "pass" (.bool r.pass) (.cons "timestamp" (.str r.timestamp)
    (.cons "prevHash" (optStrJ prevHash) .nil)))))))))

/-- `stable({ ...rec, prevHash })`, the exact string handed to sha256 by
`appendRecord` (src/attest.ts line 46) and by the verifier recomputation
(src/verify.ts line 37). -/
def hashView (r : TaskAttestation) (prevHash : Option String) : String :=
  stable (recView r prevHash)

/-- One persisted line of the attestation log: `ChainLine` from
src/attest.ts lines 15-19. -/
structure ChainLine extends TaskAttestation where
  idx : Int
  prevHash : Option String
  hash : String
deriving DecidableEq

/-- `appendRecord` from src/attest.ts lines 40-51, made pure: it returns the
line that is appended to the file at `path` together with the returned hash.
The `path` argument only names the file and cannot influence either. -/
def appendRecord (H : String → String) (path : String) (rec : TaskAttestation)
    (prevHash : Option String) (idx : Int) : ChainLine × String :=
  let hash := H (hashView rec prevHash)
  (({ toTaskAttestation := rec, idx := idx, prevHash := prevHash, hash := hash },
    hash))

/-- `startChain` from src/attest.ts lines 36-38 truncates the log: the
persisted entry list becomes empty. -/
def startChain (path : String) : List ChainLine := []

/-- The attestation loop of src/run.ts lines 270-346 restricted to the chain:
starting from a given `prevHash` and `idx`, append one record per task,
threading the returned hash into the next call as its `prevHash` and
incrementing `idx`. -/
def buildChain (H : String → String) :
    List TaskAttestation → Option String → Int → List ChainLine
  | [], _, _ => []
  | r :: rs, prev, i =>
    (appendRecord H "" r prev i).1 ::
      buildChain H rs (some (appendRecord H "" r prev i).2) (i + 1)

/-- A full run appends starting from `prevHash = null` and `idx = 0`
(src/run.ts lines 213-214). -/
def chainOf (H : String → String) (rs : List TaskAttestation) : List ChainLine :=
  buildChain H rs none 0

/-- Outcome of the verifier of src/verify.ts: success with the record count
it prints (line 44), or the first failure with the `idx` value it prints
(lines 34 and 39) — the entry's own declared `idx` field. -/
inductive VerifyResult where
  | ok (count : Nat)
  | chainBreak (idx : Int)
  | hashMismatch (idx : Int)
deriving DecidableEq

/-- The verification loop of src/verify.ts lines 29-43 over parsed lines:
check the declared `prevHash` against the running expected value, recompute
the digest of the entry without `idx`/`hash` (with the expected `prevHash`,
line 37), and thread the stored `hash` forward.  Fail-fast with the entry's
declared `idx`. -/
def verifyFrom (H : String → String) (prev : Option String) :
    List ChainLine → VerifyResult
  | [] => .ok 0
  | l :: ls =>
    if l.prevHash ≠ prev then .chainBreak l.idx
    else if H (hashView l.toTaskAttestation prev) ≠ l.hash then .hashMismatch l.idx
    else
      match verifyFrom H (some l.hash) ls with
      | .ok n => .ok (n + 1)
      | r => r

/-- The whole verifier run: `prevHash` starts at `null` (src/verify.ts line
29) and on success the count of verified records is reported. -/
def verify (H : String → String) (log : List ChainLine) : VerifyResult :=
  verifyFrom H none log

theorem verifyFrom_buildChain (H : String → String) :
    ∀ (rs : List TaskAttestation) (prev : Option String) (i : Int),
      verifyFrom H prev (buildChain H rs prev i) = .ok rs.length
  | [], _, _ => rfl
  | r :: rs, prev, i => by
    simp [buildChain, appendRecord, verifyFrom,
      verifyFrom_buildChain H rs (some (H (hashView r prev))) (i + 1)]

theorem buildChain_map_hash_idx_irrel (H : String → String) :
    ∀ (rs : List TaskAttestation) (prev : Option String) (i j : Int),
      (buildChain H rs prev i).map ChainLine.hash
        = (buildChain H rs prev j).map ChainLine.hash
  | [], _, _, _ => rfl
  | r :: rs, prev, i, j => by
    simp [buildChain, appendRecord,
      buildChain_map_hash_idx_irrel H rs (some (H (hashView r prev))) (i + 1) (j + 1)]

/-- C1: every chain produced by the builder — first `prevHash` null, each
later `prevHash` the hash returned by the previous append, `idx` increasing
from 0 — verifies successfully, and the verifier reports exactly as many
records as were appended. -/
theorem c1_builder_verifier_roundtrip (H : String → String)
    (rs : List TaskAttestation) : verify H (chainOf H rs) = .ok rs.length :=
  verifyFrom_buildChain H rs none 0

/-- C9: the hash returned by `appendRecord` is a function of the record
fields and `prevHash` only — the `idx` and `path` arguments never influence
it — and consequently the hashes of a whole chain are independent of the
`idx` labels it was built with. -/
theorem c9_append_hash_ignores_idx_and_path :
    (∀ (H : String → String) (p1 p2 : String) (rec : TaskAttestation)
      (prev : Option String) (i j : Int),
      (appendRecord H p1 rec prev i).2 = (appendRecord H p2 rec prev j).2)
    ∧ (∀ (H : String → String) (rs : List TaskAttestation)
      (prev : Option String) (i j : Int),
      (buildChain H rs prev i).map ChainLine.hash
        = (buildChain H rs prev j).map ChainLine.hash) :=
  ⟨fun _ _ _ _ _ _ _ => rfl, fun H rs prev i j => buildChain_map_hash_idx_irrel H rs prev i j⟩

/-- C5: the canonical digest is insensitive to mapping key insertion order —
values equal up to (possibly nested) key reordering have equal digests under
any hash function — while sequence element order is preserved by
canonicalisation, so reordering sequence elements changes the digest input
(witnessed by `[1,2]` against `[2,1]`). -/
theorem c5_digest_key_order_insensitive :
    (∀ (H : String → String) (a b : JVal), KeyPerm a b →
      nodupKeysV a = true → digest H a = digest H b)
    ∧ (∀ xs : JArr, (sortObjArr xs).toList = xs.toList.map sortObj)
    ∧ stable (.arr (.cons (.num 1) (.cons (.num 2) .nil)))
      ≠ stable (.arr (.cons (.num 2) (.cons (.num 1) .nil))) := by
  refine ⟨fun H a b hk hnd => ?_, toList_sortObjArr, by decide⟩
  unfold digest stable
  rw [keyPerm_sortObj hk hnd]

/-- Example values for the C5 witness: the same two-field object built with
its keys in the two possible insertion orders. -/
def c5exA : JVal := .obj (.cons "b" (.num 1) (.cons "a" (.str "x") .nil))

/-- Companion value to `c5exA` with the opposite insertion order. -/
def c5exB : JVal := .obj (.cons "a" (.str "x") (.cons "b" (.num 1) .nil))

theorem c5exA_keyPerm_c5exB : KeyPerm c5exA c5exB :=
  .obj (.cons "b" (.num 1) (.cons "a" (.str "x") .nil)) (List.Perm.swap _ _ _)

/-- Witness for C5 at a concrete pair of reordered objects. -/
theorem c5_digest_key_order_insensitive_witness :
    KeyPerm c5exA c5exB ∧ nodupKeysV c5exA = true ∧
      digest id c5exA = digest id c5exB :=
  ⟨c5exA_keyPerm_c5exB, by decide,
    c5_digest_key_order_insensitive.1 id c5exA c5exB c5exA_keyPerm_c5exB (by decide)⟩

/-- A mutation of a single field of a single chain entry: the new value for
that field. -/
inductive FieldMut where
  | run_id (v : String)
  | task_id (v : String)
  | model (v : String)
  | dataset_sha256 (v : String)
  | prompt_sha256 (v : String)
  | code_sha256 (v : String)
  | pass (v : Bool)
  | timestamp (v : String)
  | idx (v : Int)
  | prevHash (v : Option String)
  | hash (v : String)

/-- Apply a single-field mutation to one entry. -/
def applyMut : FieldMut → ChainLine → ChainLine
  | .run_id v, l => { l with run_id := v }
  | .task_id v, l => { l with task_id := v }
  | .model v, l => { l with model := v }
  | .dataset_sha256 v, l => { l with dataset_sha256 := v }
  | .prompt_sha256 v, l => { l with prompt_sha256 := v }
  | .code_sha256 v, l => { l with code_sha256 := v }
  | .pass v, l => { l with pass := v }
  | .timestamp v, l => { l with timestamp := v }
  | .idx v, l => { l with idx := v }
  | .prevHash v, l => { l with prevHash := v }
  | .hash v, l => { l with hash := v }

/-- Apply a mutation to the entry at a given file position. -/
def mutateAt : List ChainLine → Nat → FieldMut → List ChainLine
  | [], _, _ => []
  | l :: ls, 0, m => applyMut m l :: ls
  | l :: ls, i + 1, m => l :: mutateAt ls i m

/-- A mutation of entry `l` the verifier can see: a changed `prevHash` or
`hash`, or a record-field change whose recomputed digest differs from the
stored hash (the no-SHA-256-collision assumption at this exact pair).
A mutation of the unchecked `idx` field is never detectable. -/
def detectable (H : String → String) (l : ChainLine) : FieldMut → Prop
  | .idx _ => False
  | .prevHash v => v ≠ l.prevHash
  | .hash v => v ≠ l.hash
  | m => H (hashView (applyMut m l).toTaskAttestation l.prevHash) ≠ l.hash

/-- The reported failure position of a verifier outcome, if any. -/
def failIdx : VerifyResult → Option Int
  | .ok _ => none
  | .chainBreak i => some i
  | .hashMismatch i => some i

theorem verifyFrom_cons_ok {H : String → String} {prev : Option String}
    {l : ChainLine} {ls : List ChainLine} {n : Nat}
    (h : verifyFrom H prev (l :: ls) = .ok n) :
    l.prevHash = prev ∧ H (hashView l.toTaskAttestation prev) = l.hash ∧
      ∃ m, verifyFrom H (some l.hash) ls = .ok m ∧ n = m + 1 := by
  by_cases h1 : l.prevHash = prev
  · by_cases h2 : H (hashView l.toTaskAttestation prev) = l.hash
    · refine ⟨h1, h2, ?_⟩
      cases hv : verifyFrom H (some l.hash) ls with
      | ok m =>
        simp only [verifyFrom, h1, h2, hv, ne_eq, not_true_eq_false, if_false] at h
        exact ⟨m, rfl, by cases h; rfl⟩
      | chainBreak i =>
        simp only [verifyFrom, h1, h2, hv, ne_eq, not_true_eq_false, if_false] at h
        simp at h
      | hashMismatch i =>
        simp only [verifyFrom, h1, h2, hv, ne_eq, not_true_eq_false, if_false] at h
        simp at h
    · simp only [verifyFrom, h1, h2, ne_eq, not_true_eq_false, if_false,
        not_false_eq_true, if_true] at h
      simp at h
  · simp only [verifyFrom, h1, ne_eq, not_false_eq_true, if_true] at h
    simp at h

theorem c2_aux (H : String → String) :
    ∀ (log : List ChainLine) (prev : Option String) (n : Nat),
      verifyFrom H prev log = .ok n →
      ∀ (i : Nat) (hi : i < log.length),
        (∀ m : FieldMut, detectable H (log.get ⟨i, hi⟩) m →
          failIdx (verifyFrom H prev (mutateAt log i m))
            = some (log.get ⟨i, hi⟩).idx)
        ∧ (∀ v : Int, verifyFrom H prev (mutateAt log i (.idx v)) = .ok n)
  | [], _, _, _, i, hi => absurd hi (by simp)
  | l :: ls, prev, n, h, 0, hi => by
    obtain ⟨h1, h2, m0, hrest, hn⟩ := verifyFrom_cons_ok h
    subst h1
    constructor
    · intro m hdet
      cases m with
      | idx v => exact absurd hdet (by simp [detectable])
      | prevHash v =>
        simp only [detectable, List.get] at hdet
        simp [mutateAt, applyMut, verifyFrom, failIdx, hdet]
      | hash v =>
        simp only [detectable, List.get] at hdet
        simp [mutateAt, applyMut, verifyFrom, failIdx, h2, Ne.symm hdet]
      | run_id v =>
        simp only [detectable, List.get] at hdet
        simp only [applyMut] at hdet
        simp [mutateAt, applyMut, verifyFrom, failIdx, hdet]
      | task_id v =>
        simp only [detectable, List.get] at hdet
        simp only [applyMut] at hdet
        simp [mutateAt, applyMut, verifyFrom, failIdx, hdet]
      | model v =>
        simp only [detectable, List.get] at hdet
        simp only [applyMut] at hdet
        simp [mutateAt, applyMut, verifyFrom, failIdx, hdet]
      | dataset_sha256 v =>
        simp only [detectable, List.get] at hdet
        simp only [applyMut] at hdet
        simp [mutateAt, applyMut, verifyFrom, failIdx, hdet]
      | prompt_sha256 v =>
        simp only [detectable, List.get] at hdet
        simp only [applyMut] at hdet
        simp [mutateAt, applyMut, verifyFrom, failIdx, hdet]
      | code_sha256 v =>
        simp only [detectable, List.get] at hdet
        simp only [applyMut] at hdet
        simp [mutateAt, applyMut, verifyFrom, failIdx, hdet]
      | pass v =>
        simp only [detectable, List.get] at hdet
        simp only [applyMut] at hdet
        simp [mutateAt, applyMut, verifyFrom, failIdx, hdet]
      | timestamp v =>
        simp only [detectable, List.get] at hdet
        simp only [applyMut] at hdet
        simp [mutateAt, applyMut, verifyFrom, failIdx, hdet]
    · intro v
      simp [mutateAt, applyMut, verifyFrom, h2, hrest, hn]
  | l :: ls, prev, n, h, i + 1, hi => by
    obtain ⟨h1, h2, m0, hrest, hn⟩ := verifyFrom_cons_ok h
    subst h1
    have ih := c2_aux H ls (some l.hash) m0 hrest i (by simpa using hi)
    constructor
    · intro m hdet
      have hx := ih.1 m (by simpa [List.get] using hdet)
      simp only [mutateAt, verifyFrom, ne_eq, not_true_eq_false, if_false, h2]
      cases hv : verifyFrom H (some l.hash) (mutateAt ls i m) with
      | ok k => rw [hv] at hx; simp [failIdx] at hx
      | chainBreak j =>
        rw [hv] at hx
        simpa using hx
      | hashMismatch j =>
        rw [hv] at hx
        simpa using hx
    · intro v
      have hx := ih.2 v
      simp [mutateAt, verifyFrom, h2, hx, hn]

/-- C2 (amended): over a log that verifies successfully, a single-field
mutation of any entry field other than `idx` that the hash can see (changed
`prevHash`, changed `hash`, or a record-field change whose recomputed digest
differs from the stored hash) makes the verifier fail, reporting exactly the
mutated entry's declared `idx` — never an earlier position.  A mutation of
the `idx` field alone is undetected: verification still succeeds with the
same count, because the verifier never reads `idx` except to label errors. -/
theorem c2_single_field_mutation_amended (H : String → String)
    (log : List ChainLine) (n : Nat) (hok : verify H log = .ok n)
    (i : Nat) (hi : i < log.length) :
    (∀ m : FieldMut, detectable H (log.get ⟨i, hi⟩) m →
      failIdx (verify H (mutateAt log i m)) = some (log.get ⟨i, hi⟩).idx)
    ∧ (∀ v : Int, verify H (mutateAt log i (.idx v)) = .ok n) :=
  c2_aux H log none n hok i hi

/-- A fixed concrete attestation record for counterexamples and witnesses. -/
def exRec (t : String) : TaskAttestation :=
  { run_id := "r1", task_id := t, model := "m", dataset_sha256 := "d",
    prompt_sha256 := "p", code_sha256 := "c", pass := true, timestamp := "ts" }

/-- A concrete valid one-entry log (hash collaborator instantiated with the
identity function, which is injective like an ideal digest). -/
def c2log : List ChainLine := chainOf id [exRec "a"]

/-- C2 counterexample: the claim promises that a mutation of any single
field, including `idx`, makes verification fail; but mutating only `idx`
of the sole entry of a previously valid log leaves verification succeeding,
because src/verify.ts never compares `idx` with anything. -/
theorem c2_single_field_mutation_counterexample :
    verify id c2log = .ok 1 ∧
      mutateAt c2log 0 (.idx 7) ≠ c2log ∧
      verify id (mutateAt c2log 0 (.idx 7)) = .ok 1 :=
  ⟨by decide, by decide, by decide⟩

/-- Witness for the amended C2 at a concrete log: a `pass`-field mutation is
reported at the entry's declared idx 0, and an `idx`-only mutation is not
detected. -/
theorem c2_single_field_mutation_amended_witness :
    verify id c2log = .ok 1 ∧
      detectable id (c2log.get ⟨0, by decide⟩) (.pass false) ∧
      failIdx (verify id (mutateAt c2log 0 (.pass false)))
        = some ((c2log.get ⟨0, by decide⟩).idx) ∧
      verify id (mutateAt c2log 0 (.idx 7)) = .ok 1 :=
  ⟨by decide, by simp only [detectable]; decide,
    (c2_single_field_mutation_amended id c2log 1 (by decide) 0 (by decide)).1
      (.pass false) (by simp only [detectable]; decide),
    (c2_single_field_mutation_amended id c2log 1 (by decide) 0 (by decide)).2 7⟩

/-- C4 (amended): deleting entry index 1 from a valid 3-entry chain makes
the verifier fail with ChainBreak, but the reported value is 2 — the
surviving third entry's declared `idx` (that entry now sits at file position
1) — provided the first two chain hashes differ (no collision). -/
theorem c4_delete_middle_entry_chainbreak (H : String → String)
    (r0 r1 r2 : TaskAttestation)
    (hne : H (hashView r1 (some (H (hashView r0 none)))) ≠ H (hashView r0 none)) :
    verify H ((chainOf H [r0, r1, r2]).eraseIdx 1) = .chainBreak 2 := by
  simp [chainOf, buildChain, appendRecord, List.eraseIdx, verify, verifyFrom, hne]

set_option maxRecDepth 4000 in
/-- C4 counterexample: at a concrete valid 3-entry log with entry index 1
deleted, the verifier reports ChainBreak at idx 2 (the deleted entry's
successor's declared idx), not at idx 1 as the claim states. -/
theorem c4_delete_middle_entry_counterexample :
    (chainOf id [exRec "a", exRec "b", exRec "c"]).length = 3 ∧
      verify id (chainOf id [exRec "a", exRec "b", exRec "c"]) = .ok 3 ∧
      verify id ((chainOf id [exRec "a", exRec "b", exRec "c"]).eraseIdx 1)
        = .chainBreak 2 ∧
      VerifyResult.chainBreak 2 ≠ .chainBreak 1 :=
  ⟨by decide, by decide, by decide, by decide⟩

/-- JS whitespace, the characters `String.prototype.trim` removes (ASCII
range; the Unicode space class is irrelevant to the log format). -/
def jsWs (c : Char) : Bool :=
  c = ' ' || c = '\t' || c = '\n' || c = '\r' || c = '\x0b' || c = '\x0c'

/-- `content.trim()` from src/verify.ts line 28, over the character list. -/
def jsTrim (s : List Char) : List Char :=
  ((s.dropWhile jsWs).reverse.dropWhile jsWs).reverse

/-- `content.split("\n")` from src/verify.ts line 28. -/
def splitNL : List Char → List (List Char)
  | [] => [[]]
  | c :: cs =>
    if c = '\n' then [] :: splitNL cs
    else
      match splitNL cs with
      | s :: ss => (c :: s) :: ss
      | [] => [[c]]

/-- The verifier's line list
`content.trim().split("\n").filter(Boolean)` (src/verify.ts line 28):
`Boolean(line)` is true exactly for nonempty strings. -/
def logLines (content : List Char) : List (List Char) :=
  (splitNL (jsTrim content)).filter (fun l => !l.isEmpty)

/-- Join lines with newline separators: the shape of a persisted log file
whose lines are `ls`. -/
def joinNL : List (List Char) → List Char
  | [] => []
  | [l] => l
  | l :: l2 :: ls => l ++ '\n' :: joinNL (l2 :: ls)

/-- The verifier applied to raw file content: split into lines, drop blank
lines, parse each remaining line (`JSON.parse`, abstracted as `parse`), and
run the chain check. -/
def verifyFile (H : String → String) (parse : List Char → ChainLine)
    (content : List Char) : VerifyResult :=
  verify H ((logLines content).map parse)

/-- The first character, if any, is not whitespace. -/
def headNotWs : List Char → Bool
  | [] => true
  | c :: _ => !jsWs c

/-- A line as `JSON.stringify` writes it: nonempty, no embedded newline, and
no whitespace at either end. -/
def cleanLine (l : List Char) : Bool :=
  !l.isEmpty && decide ('\n' ∉ l) && headNotWs l && headNotWs l.reverse

theorem jsTrim_all_ws {s : List Char} (h : ∀ c ∈ s, jsWs c = true) :
    jsTrim s = [] := by
  have h1 : s.dropWhile jsWs = [] := List.dropWhile_eq_nil_iff.mpr h
  simp [jsTrim, h1]

theorem joinNL_cons {l : List Char} {ls : List (List Char)} (h : ls ≠ []) :
    joinNL (l :: ls) = l ++ '\n' :: joinNL ls := by
  cases ls with
  | nil => exact absurd rfl h
  | cons a as => rfl

theorem splitNL_no_nl : ∀ {l : List Char}, '\n' ∉ l → splitNL l = [l]
  | [], _ => rfl
  | c :: cs, h => by
    simp only [List.mem_cons, not_or] at h
    rw [splitNL, if_neg (fun hc => h.1 hc.symm), splitNL_no_nl h.2]

theorem splitNL_append : ∀ {l : List Char} (t : List Char), '\n' ∉ l →
    splitNL (l ++ '\n' :: t) = l :: splitNL t
  | [], t, _ => by simp [splitNL]
  | c :: cs, t, h => by
    simp only [List.mem_cons, not_or] at h
    rw [List.cons_append, splitNL, if_neg (fun hc => h.1 hc.symm),
      splitNL_append t h.2]

theorem splitNL_joinNL : ∀ {ls : List (List Char)}, ls ≠ [] →
    (∀ l ∈ ls, '\n' ∉ l) → splitNL (joinNL ls) = ls
  | [], hne, _ => absurd rfl hne
  | [l], _, h => by
    simp only [joinNL]
    exact splitNL_no_nl (h l (by simp))
  | l :: l2 :: ls, _, h => by
    rw [joinNL_cons (by simp), splitNL_append _ (h l (by simp)),
      splitNL_joinNL (by simp) (fun x hx => h x (by simp [hx]))]

theorem joinNL_append_single : ∀ {ls : List (List Char)} (x : List Char),
    ls ≠ [] → joinNL (ls ++ [x]) = joinNL ls ++ '\n' :: x
  | [], _, h => absurd rfl h
  | [l], x, _ => rfl
  | l :: l2 :: ls, x, _ => by
    calc joinNL ((l :: l2 :: ls) ++ [x])
        = joinNL (l :: ((l2 :: ls) ++ [x])) := rfl
      _ = l ++ '\n' :: joinNL ((l2 :: ls) ++ [x]) := joinNL_cons (by simp)
      _ = l ++ '\n' :: (joinNL (l2 :: ls) ++ '\n' :: x) := by
          rw [joinNL_append_single x (by simp)]
      _ = (l ++ '\n' :: joinNL (l2 :: ls)) ++ '\n' :: x := by simp
      _ = joinNL (l :: l2 :: ls) ++ '\n' :: x := by
          rw [joinNL_cons (show (l2 :: ls : List (List Char)) ≠ [] by simp)]

theorem joinNL_reverse : ∀ (ls : List (List Char)),
    (joinNL ls).reverse = joinNL ((ls.map List.reverse).reverse)
  | [] => rfl
  | [l] => by simp [joinNL]
  | l :: l2 :: ls => by
    rw [joinNL_cons (by simp), List.reverse_append, List.reverse_cons,
      joinNL_reverse (l2 :: ls),
      show (List.map List.reverse (l :: l2 :: ls)).reverse
        = (List.map List.reverse (l2 :: ls)).reverse ++ [l.reverse] by simp,
      joinNL_append_single _ (by simp)]
    simp

theorem dropWhile_ws_joinNL : ∀ {ls : List (List Char)},
    (∀ l ∈ ls, headNotWs l = true) →
    (joinNL ls).dropWhile jsWs = joinNL (ls.dropWhile (fun l => l.isEmpty))
  | [], _ => rfl
  | [l], h => by
    cases l with
    | nil => rfl
    | cons c l2 =>
      have hc : jsWs c = false := by
        have := h (c :: l2) (by simp)
        simpa [headNotWs] using this
      show (joinNL [c :: l2]).dropWhile jsWs
        = joinNL ([c :: l2].dropWhile (fun l => l.isEmpty))
      rw [show [c :: l2].dropWhile (fun l => l.isEmpty) = [c :: l2] by
        simp [List.dropWhile_cons]]
      rw [show joinNL [c :: l2] = c :: l2 from rfl]
      simp [List.dropWhile_cons, hc]
  | l :: l2 :: ls, h => by
    cases l with
    | nil =>
      rw [joinNL_cons (by simp), List.nil_append, List.dropWhile_cons]
      simp only [show jsWs '\x0a' = true from rfl, if_true]
      rw [dropWhile_ws_joinNL (fun x hx => h x (by simp [hx]))]
      simp [List.dropWhile_cons]
    | cons c l3 =>
      have hc : jsWs c = false := by
        have := h (c :: l3) (by simp)
        simpa [headNotWs] using this
      rw [joinNL_cons (by simp)]
      simp only [List.cons_append, List.dropWhile_cons, hc, Bool.false_eq_true,
        if_false]
      rw [← List.cons_append, ← joinNL_cons (by simp)]
      simp [List.dropWhile_cons]

theorem filter_dropWhile_isEmpty : ∀ (ls : List (List Char)),
    (ls.dropWhile (fun l => l.isEmpty)).filter (fun l => !l.isEmpty)
      = ls.filter (fun l => !l.isEmpty)
  | [] => rfl
  | l :: ls => by
    cases hl : l.isEmpty <;>
      simp [List.dropWhile_cons, List.filter_cons, hl, filter_dropWhile_isEmpty ls]

theorem joinNL_all_blank : ∀ {ls : List (List Char)}, (∀ l ∈ ls, l = []) →
    ∀ c ∈ joinNL ls, jsWs c = true
  | [], _ => by simp [joinNL]
  | [l], h => by
    rw [show joinNL [l] = l from rfl, h l (by simp)]
    simp
  | l :: l2 :: ls, h => by
    rw [joinNL_cons (by simp), h l (by simp), List.nil_append]
    intro c hc
    rcases List.mem_cons.mp hc with rfl | hc2
    · rfl
    · exact joinNL_all_blank (fun x hx => h x (by simp [hx])) c hc2

theorem filter_map_reverse_lines : ∀ (ls : List (List Char)),
    (ls.map List.reverse).filter (fun l => !l.isEmpty)
      = (ls.filter (fun l => !l.isEmpty)).map List.reverse
  | [] => rfl
  | l :: ls => by
    have hrev : l.reverse.isEmpty = l.isEmpty := by
      cases l <;> simp
    cases hl : l.isEmpty <;>
      simp [List.filter_cons, hl, hrev, filter_map_reverse_lines ls]

theorem mem_dropWhile_of_mem {p : List Char → Bool} :
    ∀ {ls : List (List Char)} {x : List Char}, x ∈ ls → p x = false →
      x ∈ ls.dropWhile p
  | l :: ls, x, hx, hpx => by
    cases hl : p l with
    | false =>
      simpa [List.dropWhile_cons, hl] using hx
    | true =>
      have hxl : x ≠ l := fun he => by rw [he, hl] at hpx; cases hpx
      have hx2 : x ∈ ls := by
        rcases List.mem_cons.mp hx with he | h2
        · exact absurd he hxl
        · exact h2
      simpa [List.dropWhile_cons, hl] using mem_dropWhile_of_mem hx2 hpx

set_option maxRecDepth 4000 in
/-- Witness for the amended C4 at the same concrete 3-entry log. -/
theorem c4_delete_middle_entry_chainbreak_witness :
    id (hashView (exRec "b") (some (id (hashView (exRec "a") none))))
      ≠ id (hashView (exRec "a") none) ∧
    verify id ((chainOf id [exRec "a", exRec "b", exRec "c"]).eraseIdx 1)
      = .chainBreak 2 :=
  ⟨by decide,
    c4_delete_middle_entry_chainbreak id (exRec "a") (exRec "b") (exRec "c")
      (by decide)⟩

theorem isEmpty_reverse_line (l : List Char) : l.reverse.isEmpty = l.isEmpty := by
  cases l <;> simp

/-- `trim`, `split`, `filter(Boolean)` on a file whose non-blank lines are
clean recover exactly the non-blank lines, wherever the blank lines sit. -/
theorem logLines_joinNL {ls : List (List Char)}
    (h : ∀ l ∈ ls, l = [] ∨ cleanLine l = true) :
    logLines (joinNL ls) = ls.filter (fun l => !l.isEmpty) := by
  by_cases hall : ∀ l ∈ ls, l = []
  · have h1 : ∀ c ∈ joinNL ls, jsWs c = true := joinNL_all_blank hall
    have h2 : ls.filter (fun l => !l.isEmpty) = [] := by
      apply List.filter_eq_nil_iff.mpr
      intro l hl
      simp [hall l hl]
    rw [logLines, jsTrim_all_ws h1, h2]
    rfl
  · push_neg at hall
    obtain ⟨l0, hl0mem, hl0ne⟩ := hall
    have hl0E : l0.isEmpty = false := by
      cases l0 with
      | nil => exact absurd rfl hl0ne
      | cons c cs => rfl
    have hclean : ∀ l ∈ ls, l ≠ [] → cleanLine l = true := fun l hl hne =>
      (h l hl).resolve_left hne
    have hsub_rest : ∀ x ∈ ls.dropWhile (fun l => l.isEmpty), x ∈ ls :=
      fun x hx => (List.dropWhile_sublist (fun l : List Char => l.isEmpty)).subset hx
    have hheads : ∀ l ∈ ls, headNotWs l = true := by
      intro l hl
      rcases h l hl with rfl | hc
      · rfl
      · simp only [cleanLine, Bool.and_eq_true] at hc
        exact hc.1.2
    have hheads2 : ∀ y ∈ (((ls.dropWhile (fun l => l.isEmpty)).map
        List.reverse).reverse), headNotWs y = true := by
      intro y hy
      rw [List.mem_reverse] at hy
      obtain ⟨z, hz, rfl⟩ := List.mem_map.mp hy
      rcases h z (hsub_rest z hz) with rfl | hc
      · rfl
      · simp only [cleanLine, Bool.and_eq_true] at hc
        exact hc.2
    have h1 : (joinNL ls).dropWhile jsWs
        = joinNL (ls.dropWhile (fun l => l.isEmpty)) := dropWhile_ws_joinNL hheads
    have h2 : (joinNL (((ls.dropWhile (fun l => l.isEmpty)).map
          List.reverse).reverse)).dropWhile jsWs
        = joinNL ((((ls.dropWhile (fun l => l.isEmpty)).map
          List.reverse).reverse).dropWhile (fun l => l.isEmpty)) :=
      dropWhile_ws_joinNL hheads2
    have htrim : jsTrim (joinNL ls)
        = joinNL (((((ls.dropWhile (fun l => l.isEmpty)).map
          List.reverse).reverse).dropWhile (fun l => l.isEmpty)).map
          List.reverse).reverse := by
      rw [jsTrim, h1, joinNL_reverse, h2, joinNL_reverse]
    have hmem_mid : ∀ x ∈ ((((((ls.dropWhile (fun l => l.isEmpty)).map
          List.reverse).reverse).dropWhile (fun l => l.isEmpty)).map
          List.reverse).reverse), x ∈ ls := by
      intro x hx
      rw [List.mem_reverse] at hx
      obtain ⟨y, hy, rfl⟩ := List.mem_map.mp hx
      have hy2 : y ∈ (((ls.dropWhile (fun l => l.isEmpty)).map
          List.reverse).reverse) :=
        (List.dropWhile_sublist (fun l : List Char => l.isEmpty)).subset hy
      rw [List.mem_reverse] at hy2
      obtain ⟨z, hz, rfl⟩ := List.mem_map.mp hy2
      rw [List.reverse_reverse]
      exact hsub_rest z hz
    have hmid_ne : ((((((ls.dropWhile (fun l => l.isEmpty)).map
          List.reverse).reverse).dropWhile (fun l => l.isEmpty)).map
          List.reverse).reverse) ≠ [] := by
      apply List.ne_nil_of_mem (a := l0)
      rw [List.mem_reverse]
      apply List.mem_map.mpr
      refine ⟨l0.reverse, ?_, List.reverse_reverse l0⟩
      apply mem_dropWhile_of_mem
      · rw [List.mem_reverse]
        apply List.mem_map.mpr
        exact ⟨l0, mem_dropWhile_of_mem hl0mem hl0E, rfl⟩
      · rw [isEmpty_reverse_line]
        exact hl0E
    have hmid_nl : ∀ x ∈ ((((((ls.dropWhile (fun l => l.isEmpty)).map
          List.reverse).reverse).dropWhile (fun l => l.isEmpty)).map
          List.reverse).reverse), '\n' ∉ x := by
      intro x hx
      rcases h x (hmem_mid x hx) with rfl | hc
      · simp
      · simp only [cleanLine, Bool.and_eq_true, decide_eq_true_eq] at hc
        exact hc.1.1.2
    have hsplit := splitNL_joinNL hmid_ne hmid_nl
    rw [logLines, htrim, hsplit]
    calc ((((((ls.dropWhile (fun l => l.isEmpty)).map
            List.reverse).reverse).dropWhile (fun l => l.isEmpty)).map
            List.reverse).reverse).filter (fun l => !l.isEmpty)
        = ((((((ls.dropWhile (fun l => l.isEmpty)).map
            List.reverse).reverse).dropWhile (fun l => l.isEmpty)).map
            List.reverse).filter (fun l => !l.isEmpty)).reverse := by
          rw [List.filter_reverse]
      _ = ((((((ls.dropWhile (fun l => l.isEmpty)).map
            List.reverse).reverse).dropWhile (fun l => l.isEmpty)).filter
            (fun l => !l.isEmpty)).map List.reverse).reverse := by
          rw [filter_map_reverse_lines]
      _ = (((((ls.dropWhile (fun l => l.isEmpty)).map
            List.reverse).reverse).filter (fun l => !l.isEmpty)).map
            List.reverse).reverse := by
          rw [filter_dropWhile_isEmpty]
      _ = (((((ls.dropWhile (fun l => l.isEmpty)).map
            List.reverse).filter (fun l => !l.isEmpty)).reverse).map
            List.reverse).reverse := by
          rw [List.filter_reverse]
      _ = (((((ls.dropWhile (fun l => l.isEmpty)).filter
            (fun l => !l.isEmpty)).map List.reverse).reverse).map
            List.reverse).reverse := by
          rw [filter_map_reverse_lines]
      _ = (ls.dropWhile (fun l => l.isEmpty)).filter (fun l => !l.isEmpty) := by
          simp [List.map_reverse, List.map_map, Function.comp_def,
            List.reverse_reverse]
      _ = ls.filter (fun l => !l.isEmpty) := filter_dropWhile_isEmpty ls

/-- C10: verifying an empty or all-whitespace log file succeeds with a count
of 0 records; and blank lines inserted anywhere between the (clean,
newline-free) lines of a log are skipped by the verifier rather than treated
as entries. -/
theorem c10_blank_content_and_blank_lines (H : String → String)
    (parse : List Char → ChainLine) :
    (∀ content : List Char, (∀ c ∈ content, jsWs c = true) →
      verifyFile H parse content = .ok 0)
    ∧ (∀ ls : List (List Char), (∀ l ∈ ls, l = [] ∨ cleanLine l = true) →
      logLines (joinNL ls) = ls.filter (fun l => !l.isEmpty)
      ∧ verifyFile H parse (joinNL ls)
        = verify H ((ls.filter (fun l => !l.isEmpty)).map parse)) := by
  constructor
  · intro content hall
    rw [verifyFile, logLines, jsTrim_all_ws hall]
    rfl
  · intro ls hls
    have main := logLines_joinNL hls
    exact ⟨main, by rw [verifyFile, main]⟩

/-- Witness for C10: an all-whitespace file verifies with 0 records, and a
concrete log whose single real line is surrounded by blank lines yields
exactly that line. -/
theorem c10_blank_content_and_blank_lines_witness :
    (∀ c ∈ [' ', '\n', '\t'], jsWs c = true) ∧
    verifyFile id (fun _ => (appendRecord id "" (exRec "a") none 0).1)
      [' ', '\n', '\t'] = .ok 0 ∧
    (∀ l ∈ [([] : List Char), ['x'], []], l = [] ∨ cleanLine l = true) ∧
    logLines (joinNL [[], ['x'], []]) = [['x']] :=
  ⟨by decide,
    (c10_blank_content_and_blank_lines id
      (fun _ => (appendRecord id "" (exRec "a") none 0).1)).1
      [' ', '\n', '\t'] (by decide),
    by decide,
    ((c10_blank_content_and_blank_lines id
      (fun _ => (appendRecord id "" (exRec "a") none 0).1)).2
      [[], ['x'], []] (by decide)).1.trans (by decide)⟩

/-- `runInSandbox` from src/run.ts lines 251-259, with the JS `vm` internals
abstracted: `load` models building and running the candidate script in a
fresh context (`new vm.Script(code).runInContext(ctx)`), `evalExpr` models
running the test expression in that same context, and `truthy` models the
final `Boolean(result)` coercion.  Either stage may throw (`Except.error`):
syntax error, runtime error, or timeout. -/
def runInSandbox {Ctx Val Err : Type} (load : String → Except Err Ctx)
    (evalExpr : Ctx → String → Except Err Val) (truthy : Val → Bool)
    (code testExpr : String) : Except Err Bool := do
  let ctx ← load code
  let r ← evalExpr ctx testExpr
  pure (truthy r)

/-- The per-test verdict of the main loop, src/run.ts lines 290-295:
`let ok = false; try { ok = runInSandbox(code, test) } catch { ok = false }`. -/
def testVerdict {Ctx Val Err : Type} (load : String → Except Err Ctx)
    (evalExpr : Ctx → String → Except Err Val) (truthy : Val → Bool)
    (code testExpr : String) : Bool :=
  match runInSandbox load evalExpr truthy code testExpr with
  | .ok b => b
  | .error _ => false

/-- C6: the per-test verdict is total (it is a `Bool`, never an exception)
and fails closed: any exception while loading the candidate code or while
evaluating the test expression yields verdict false, and an error outcome of
the sandbox is never propagated to the enclosing run loop. -/
theorem c6_verdict_total_fails_closed {Ctx Val Err : Type}
    (load : String → Except Err Ctx) (evalExpr : Ctx → String → Except Err Val)
    (truthy : Val → Bool) (code testExpr : String) :
    (∀ e : Err, load code = .error e →
      testVerdict load evalExpr truthy code testExpr = false)
    ∧ (∀ (ctx : Ctx) (e : Err), load code = .ok ctx →
      evalExpr ctx testExpr = .error e →
      testVerdict load evalExpr truthy code testExpr = false)
    ∧ (∀ e : Err, runInSandbox load evalExpr truthy code testExpr = .error e →
      testVerdict load evalExpr truthy code testExpr = false) := by
  refine ⟨fun e he => ?_, fun ctx e hc he => ?_, fun e he => ?_⟩
  · simp [testVerdict, runInSandbox, he, Bind.bind, Except.bind]
  · simp [testVerdict, runInSandbox, hc, he, Bind.bind, Except.bind]
  · simp [testVerdict, he]

/-- Witness for C6: a load failure and an evaluation failure both yield
verdict false. -/
theorem c6_verdict_total_fails_closed_witness :
    (fun _ : String => (.error () : Except Unit Unit)) "bad(" = .error () ∧
    testVerdict (fun _ : String => (.error () : Except Unit Unit))
      (fun _ _ => .ok ()) (fun _ => true) "bad(" "t" = false ∧
    (fun (_ : Unit) (_ : String) => (.error () : Except Unit Unit)) () "t"
      = .error () ∧
    testVerdict (fun _ : String => (.ok () : Except Unit Unit))
      (fun (_ : Unit) (_ : String) => (.error () : Except Unit Unit))
      (fun _ : Unit => true) "ok" "t" = false :=
  ⟨rfl,
    (c6_verdict_total_fails_closed (fun _ : String => (.error () : Except Unit Unit))
      (fun _ _ => .ok ()) (fun _ => true) "bad(" "t").1 () rfl,
    rfl,
    (c6_verdict_total_fails_closed (fun _ : String => (.ok () : Except Unit Unit))
      (fun (_ : Unit) (_ : String) => (.error () : Except Unit Unit))
      (fun _ : Unit => true) "ok" "t").2.1 () () rfl rfl⟩

/-- The attempt loop of src/run.ts lines 276-314 for one task, over the
oracle `passAt a` telling whether the code generated on attempt `a` passes
all tests.  The first argument counts the attempts that remain (the loop
runs `a = 0 .. K_ATTEMPTS-1`); the second is the current attempt index.
Returns `(solved, firstAttemptPass)`: on a passing attempt the loop records
`firstAttemptPass` only when `a == 0` (line 308), sets `solved` and breaks
(lines 309-313); if no attempt passes both stay false. -/
def taskLoop (passAt : Nat → Bool) : Nat → Nat → Bool × Bool
  | 0, _ => (false, false)
  | remaining + 1, a =>
    if passAt a then (true, a == 0)
    else taskLoop passAt remaining (a + 1)

/-- One task under `K_ATTEMPTS = K`: run attempts from index 0. -/
def runTask (passAt : Nat → Bool) (K : Nat) : Bool × Bool :=
  taskLoop passAt K 0

/-- The run-level counters of src/run.ts lines 316-317: one `pass1`
increment per task whose first attempt passed, one `passk` increment per
task solved by any attempt.  Returns `(pass1, passk)`. -/
def runCounts (K : Nat) : List (Nat → Bool) → Nat × Nat
  | [] => (0, 0)
  | t :: ts =>
    ((runCounts K ts).1 + (if (runTask t K).2 then 1 else 0),
     (runCounts K ts).2 + (if (runTask t K).1 then 1 else 0))

theorem taskLoop_first_implies_solved (passAt : Nat → Bool) :
    ∀ (remaining a : Nat), (taskLoop passAt remaining a).2 = true →
      (taskLoop passAt remaining a).1 = true
  | 0, a, h => by simp [taskLoop] at h
  | remaining + 1, a, h => by
    rw [taskLoop] at h ⊢
    by_cases hp : passAt a
    · simp [hp]
    · simp only [hp, Bool.false_eq_true, if_false] at h ⊢
      exact taskLoop_first_implies_solved passAt remaining (a + 1) h

theorem runTask_first_implies_solved (passAt : Nat → Bool) (K : Nat)
    (h : (runTask passAt K).2 = true) : (runTask passAt K).1 = true :=
  taskLoop_first_implies_solved passAt K 0 h

theorem runTask_k1 (passAt : Nat → Bool) :
    (runTask passAt 1).1 = (runTask passAt 1).2 := by
  rw [runTask, taskLoop]
  by_cases hp : passAt 0 <;> simp [hp, taskLoop]

/-- C7: for every run with `k ≥ 1` attempts per task, the total pass@k count
is at least the total pass@1 count, and with `k = 1` the two counts are
equal. -/
theorem c7_passk_ge_pass1 (K : Nat) (hK : 1 ≤ K) (tasks : List (Nat → Bool)) :
    (runCounts K tasks).1 ≤ (runCounts K tasks).2
    ∧ (K = 1 → (runCounts K tasks).1 = (runCounts K tasks).2) := by
  induction tasks with
  | nil => exact ⟨Nat.le_refl 0, fun _ => rfl⟩
  | cons t ts ih =>
    constructor
    · have h2 : (if (runTask t K).2 then 1 else 0)
          ≤ (if (runTask t K).1 then 1 else 0) := by
        by_cases hf : (runTask t K).2 = true
        · simp [hf, runTask_first_implies_solved t K hf]
        · simp [hf]
      exact Nat.add_le_add ih.1 h2
    · intro hk1
      subst hk1
      simp only [runCounts, runTask_k1 t, ih.2 rfl]

/-- Witness for C7 at a concrete run: one task solved on its first (and
only) attempt under k = 1. -/
theorem c7_passk_ge_pass1_witness :
    1 ≤ 1 ∧
    (runCounts 1 [fun _ => true]).1 ≤ (runCounts 1 [fun _ => true]).2 ∧
    (runCounts 1 [fun _ => true]).1 = (runCounts 1 [fun _ => true]).2 :=
  ⟨Nat.le_refl 1, (c7_passk_ge_pass1 1 (Nat.le_refl 1) [fun _ => true]).1,
    (c7_passk_ge_pass1 1 (Nat.le_refl 1) [fun _ => true]).2 rfl⟩

/-- `K_ATTEMPTS = Number(process.env.K_ATTEMPTS ?? 1)` from src/run.ts line
174, over the parsed numeric environment value (`none` when unset). -/
def kAttempts (envK : Option Rat) : Rat := envK.getD 1

/-- `EVAL_TEMPERATURE` from src/run.ts lines 175-176: forced to 0 when
`K_ATTEMPTS === 1`, else `Number(process.env.EVAL_TEMPERATURE ?? 0.7)`. -/
def evalTemperature (envK envTemp : Option Rat) : Rat :=
  if kAttempts envK = 1 then 0 else envTemp.getD (7 / 10)

/-- `EVAL_TOP_P` from src/run.ts lines 177-178: forced to 1 when
`K_ATTEMPTS === 1`, else `Number(process.env.EVAL_TOP_P ?? 0.95)`. -/
def evalTopP (envK envTopP : Option Rat) : Rat :=
  if kAttempts envK = 1 then 1 else envTopP.getD (19 / 20)

/-- The sampling-relevant part of the chat request body built at src/run.ts
lines 218-227. -/
structure ChatBody where
  model : String
  temperature : Rat
  top_p : Rat
  max_tokens : Nat
deriving DecidableEq

/-- The request body sent to the generation collaborator (src/run.ts lines
218-227). -/
def chatBody (modelName : String) (envK envTemp envTopP : Option Rat) : ChatBody :=
  { model := modelName, temperature := evalTemperature envK envTemp,
    top_p := evalTopP envK envTopP, max_tokens := 256 }

/-- The `sampling` object recorded in the run summary (src/run.ts line 362). -/
structure Sampling where
  temperature : Rat
  top_p : Rat
deriving DecidableEq

/-- `sampling: { temperature: EVAL_TEMPERATURE, top_p: EVAL_TOP_P }`. -/
def summarySampling (envK envTemp envTopP : Option Rat) : Sampling :=
  { temperature := evalTemperature envK envTemp,
    top_p := evalTopP envK envTopP }

/-- C8: whenever the run is configured with k = 1 attempts, the sampling
parameters sent to the generation collaborator and recorded in the summary
are temperature 0 and top_p 1, whatever the EVAL_TEMPERATURE and EVAL_TOP_P
environment settings hold. -/
theorem c8_k1_deterministic_sampling (modelName : String)
    (envK envTemp envTopP : Option Rat) (hk : kAttempts envK = 1) :
    (chatBody modelName envK envTemp envTopP).temperature = 0
    ∧ (chatBody modelName envK envTemp envTopP).top_p = 1
    ∧ summarySampling envK envTemp envTopP
      = { temperature := 0, top_p := 1 } := by
  refine ⟨?_, ?_, ?_⟩ <;>
    simp [chatBody, summarySampling, evalTemperature, evalTopP, hk]

/-- Witness for C8: K_ATTEMPTS unset (defaulting to 1) with both sampling
environment variables set to other values. -/
theorem c8_k1_deterministic_sampling_witness :
    kAttempts none = 1 ∧
    (chatBody "m" none (some (9 / 10)) (some (1 / 2))).temperature = 0 ∧
    (chatBody "m" none (some (9 / 10)) (some (1 / 2))).top_p = 1 ∧
    summarySampling none (some (9 / 10)) (some (1 / 2))
      = { temperature := 0, top_p := 1 } :=
  ⟨rfl,
    (c8_k1_deterministic_sampling "m" none (some (9 / 10)) (some (1 / 2)) rfl).1,
    (c8_k1_deterministic_sampling "m" none (some (9 / 10)) (some (1 / 2)) rfl).2.1,
    (c8_k1_deterministic_sampling "m" none (some (9 / 10)) (some (1 / 2)) rfl).2.2⟩

/-- `chosenCode` across the attempt loop of src/run.ts lines 272-313: it is
initialised to `""` and set to the generated code exactly when an attempt
passes (line 311), after which the loop breaks; `codeAt a` is the code
extracted from the completion of attempt `a`. -/
def chosenCodeLoop (codeAt : Nat → String) (passAt : Nat → Bool) :
    Nat → Nat → String
  | 0, _ => ""
  | remaining + 1, a =>
    if passAt a then codeAt a
    else chosenCodeLoop codeAt passAt remaining (a + 1)

/-- The `chosenCode` value after running a task with `K_ATTEMPTS = K`. -/
def chosenCode (codeAt : Nat → String) (passAt : Nat → Bool) (K : Nat) : String :=
  chosenCodeLoop codeAt passAt K 0

/-- The attested `code_sha256` field from src/run.ts line 340:
`chosenCode ? hash(chosenCode) : "none"` (the empty string is falsy). -/
def attestedCodeSha (H : String → String) (chosen : String) : String :=
  if chosen ≠ "" then H chosen else "none"

/-- The `codeHash` constant of src/run.ts line 320,
`hash(chosenCode || extractCode(attempts.at(-1) ? "" : ""))`: both branches
of the inner ternary are `""` and `extractCode("") = ""`, so the fallback is
always the hash of the empty string; the constant is never used afterwards. -/
def deadCodeHash (H : String → String) (chosen : String) : String :=
  if chosen ≠ "" then H chosen else H ""

/-- C3 (code bug, failing part evaluated): with `K_ATTEMPTS = 1` and a task
whose single attempt produces code "x" that fails its tests, `chosenCode`
stays empty and the appended record's `code_sha256` is the literal string
"none" — not the digest of the last attempt's code, as the spec and the
comment at src/run.ts line 319 state; the line-320 fallback `codeHash` is
the hash of "" and is unused. -/
theorem c3_unsolved_task_attests_none :
    chosenCode (fun _ => "x") (fun _ => false) 1 = "" ∧
    attestedCodeSha id (chosenCode (fun _ => "x") (fun _ => false) 1) = "none" ∧
    id "x" ≠ "none" ∧
    deadCodeHash id (chosenCode (fun _ => "x") (fun _ => false) 1) = id "" ∧
    chosenCode (fun _ => "y") (fun _ => true) 1 = "y" ∧
    attestedCodeSha id (chosenCode (fun _ => "y") (fun _ => true) 1) = id "y" :=
  ⟨rfl, rfl, by decide, rfl, rfl, rfl⟩

end PromptToProof
